import Mathlib

/-!
Verification of the two build-pipeline scripts of this repository:
`materials/format_directories.py` (the Material Renamer) and `stage.py`
(the Build Stager).  Each script is shallowly embedded as a pure Lean
function over an explicit model of the filesystem state it manipulates,
and the specified properties are proved (or refuted) about those
functions.
-/

/- ===================================================================
   Part 1: the Material Renamer (materials/format_directories.py)

   The script scans the immediate children of the working directory;
   for each child that is a directory it scans the entries directly
   inside it, tests each entry name against an ordered table of
   regular expressions with re.IGNORECASE, and on the first hit calls
   os.rename to move the entry to <child>/<canonical>.png, printing a
   progress line.

   Filesystem model: a directory is an association list of
   (name, node) pairs in enumeration order; a node is a regular file
   with its byte content or a directory with its children.
   =================================================================== -/

/-- A filesystem node as seen by the Renamer: a regular file with its
byte content, or a directory with its named children in enumeration
order. -/
inductive FsNode where
  | file : List Nat → FsNode
  | dir : List (String × FsNode) → FsNode

/-- The contents of one directory, in enumeration order. -/
abbrev Dir := List (String × FsNode)

/-- ASCII case folding on a single character, at the level of code
points: the folding performed by re.IGNORECASE on the ASCII-only
patterns of the table.  Uppercase A..Z (65..90) map to a..z. -/
def foldChar (c : Char) : Nat :=
  if 65 ≤ c.toNat ∧ c.toNat ≤ 90 then c.toNat + 32 else c.toNat

/-- Case folding of a whole string, as a list of folded code points. -/
def foldStr (s : String) : List Nat :=
  s.data.map foldChar

/-- Whether the first list is an initial segment of the second. -/
def startsSeq : List Nat → List Nat → Bool
  | [], _ => true
  | _ :: _, [] => false
  | a :: as, b :: bs => a == b && startsSeq as bs

/-- Whether the first list occurs contiguously inside the second. -/
def containsSeq (p : List Nat) : List Nat → Bool
  | [] => startsSeq p []
  | b :: bs => startsSeq p (b :: bs) || containsSeq p bs

/-- Split a regular expression on the alternation bar.  The three
patterns of the table use no other regex metacharacter, so each
alternative is a literal string. -/
def splitAlts : List Char → List (List Char)
  | [] => [[]]
  | c :: cs =>
    if c = '|' then [] :: splitAlts cs
    else
      match splitAlts cs with
      | [] => [[c]]
      | a :: as => (c :: a) :: as

/-- Semantics of re.search(pat, name, re.IGNORECASE) for the patterns
of the table, which are alternations of ASCII literals: some
alternative occurs, case-insensitively, inside the name. -/
def re_search_ci (pat name : String) : Bool :=
  (splitAlts pat.data).any fun alt =>
    containsSeq (alt.map foldChar) (foldStr name)

/-- The pattern table of the source, in order. -/
def r_expressions : List String := ["albedo|Base_Color", "normal", "roughness"]

/-- The canonical output names of the source, aligned with
`r_expressions`. -/
def out_names : List String := ["albedo", "normal", "roughness"]

/-- The inner loop over pattern indices: return the first index (from
`k` upward) whose pattern matches `name`, mirroring the
for-range-with-break loop of the source. -/
def firstMatchIdx (name : String) : List String → Nat → Option Nat
  | [], _ => none
  | p :: ps, k => if re_search_ci p name then some k else firstMatchIdx name ps (k + 1)

/-- Index of the first pattern of the table matching `name`, if any. -/
def matchIndex (name : String) : Option Nat :=
  firstMatchIdx name r_expressions 0

/-- Semantics of os.rename(src, dst) inside one directory (both paths
of the script share the parent directory): the entry named `src` is
moved to the name `dst`; when the destination is free the move always
succeeds, and an existing regular file named `dst` is silently
replaced when a regular file is moved onto it (the POSIX file-onto-
file semantics, the reading the specification fixes).  Two kinds of
os.rename failure are not distinguished by this model and are kept
outside the theorems below: a missing source raises (unreachable in a
run, since a snapshot name is only ever replaced in place, never
removed; that dead branch returns the directory unchanged), and the
collision cases involving a directory on either side raise
kind-dependent errors (ENOTDIR, EISDIR, ENOTEMPTY) that crash the
script, while this model replaces unconditionally -- the claims about
collisions below concern regular files only, and the claim about
directory renames assumes a free destination. -/
def renameEntry (d : Dir) (src dst : String) : Dir :=
  match d.lookup src with
  | none => d
  | some v => (d.filter fun e => !(e.1 == src) && !(e.1 == dst)) ++ [(dst, v)]

/-- A progress line of the script, recorded structurally:
(parent directory path, source entry name, destination file name). -/
abbrev LogT := String × String × String

/-- The printed form of a progress line, exactly as the source formats
it: "Moved <parent>/<src> to <parent>/<dst>". -/
def logLine (t : LogT) : String :=
  "Moved " ++ t.1 ++ "/" ++ t.2.1 ++ " to " ++ t.1 ++ "/" ++ t.2.2

/-- One iteration of the inner entry loop: test the snapshot name
against the table and, on the first hit, rename the entry to
<canonical>.png and record the progress line. -/
def processEntry (parent : String) (st : Dir × List LogT) (name : String) :
    Dir × List LogT :=
  match matchIndex name with
  | none => st
  | some i =>
    let dst := out_names.getD i "" ++ ".png"
    (renameEntry st.1 name dst, st.2 ++ [(parent, name, dst)])

/-- The scan of one child directory: iterate over the snapshot of its
entry names in enumeration order, renaming matches. -/
def runDir (parent : String) (d : Dir) : Dir × List LogT :=
  (d.map Prod.fst).foldl (processEntry parent) (d, [])

/-- The top-level loop body: a child directory is scanned (its path is
"./<name>"), any other entry is left alone. -/
def processTop : String × FsNode → (String × FsNode) × List LogT
  | (n, FsNode.dir d) =>
    let r := runDir ("./" ++ n) d
    ((n, FsNode.dir r.1), r.2)
  | e => (e, [])

/-- The whole script: scan the entries of the working directory in
order, descending only into directories; return the resulting tree and
the progress lines in the order they are printed. -/
def format_directories (root : List (String × FsNode)) :
    List (String × FsNode) × List LogT :=
  ((root.map processTop).map Prod.fst,
   ((root.map processTop).map Prod.snd).flatten)

/- Helper lemmas about the pattern loop. -/

theorem firstMatchIdx_some_iff (name : String) (ps : List String) (k i : Nat) :
    firstMatchIdx name ps k = some i ↔
      ∃ j, j < ps.length ∧ i = k + j ∧ re_search_ci (ps.getD j "") name = true ∧
        ∀ j', j' < j → re_search_ci (ps.getD j' "") name = false := by
  induction ps generalizing k i with
  | nil => simp [firstMatchIdx]
  | cons p ps ih =>
    simp only [firstMatchIdx]
    by_cases hp : re_search_ci p name = true
    · simp only [hp, if_true, Option.some.injEq]
      constructor
      · rintro rfl
        exact ⟨0, by simp, by omega, by simpa using hp,
          fun j' h => absurd h (Nat.not_lt_zero j')⟩
      · rintro ⟨j, hj, rfl, hmatch, hlt⟩
        cases j with
        | zero => omega
        | succ j =>
          have := hlt 0 (Nat.succ_pos j)
          simp only [List.getD_cons_zero] at this
          rw [hp] at this
          cases this
    · rw [if_neg hp, ih]
      constructor
      · rintro ⟨j, hj, rfl, hm, hlt⟩
        refine ⟨j + 1, by simpa using Nat.succ_lt_succ hj, by omega, by simpa using hm, ?_⟩
        intro j' hj'
        cases j' with
        | zero => simpa using Bool.eq_false_iff.mpr hp
        | succ j' => simpa using hlt j' (by omega)
      · rintro ⟨j, hj, rfl, hm, hlt⟩
        cases j with
        | zero =>
          simp only [List.getD_cons_zero] at hm
          exact absurd hm hp
        | succ j =>
          refine ⟨j, by simpa using Nat.lt_of_succ_lt_succ hj, by omega,
            by simpa using hm, ?_⟩
          intro j' h
          have := hlt (j' + 1) (by omega)
          simpa using this

theorem matchIndex_some_iff (name : String) (i : Nat) :
    matchIndex name = some i ↔
      i < 3 ∧ re_search_ci (r_expressions.getD i "") name = true ∧
        ∀ j, j < i → re_search_ci (r_expressions.getD j "") name = false := by
  rw [matchIndex, firstMatchIdx_some_iff]
  constructor
  · rintro ⟨j, hj, rfl, hm, hlt⟩
    exact ⟨by simpa [r_expressions] using hj, by simpa using hm, by simpa using hlt⟩
  · rintro ⟨hi, hm, hlt⟩
    exact ⟨i, by simpa [r_expressions] using hi, by omega, hm, hlt⟩

theorem matchIndex_lt (name : String) (i : Nat) (h : matchIndex name = some i) :
    i < 3 :=
  ((matchIndex_some_iff name i).mp h).1

/-- Each canonical destination file name itself matches some pattern of
the table (used to show that a never-matching name can never be the
destination of a rename). -/
theorem matchIndex_canon (i : Nat) (h : i < 3) :
    (matchIndex (out_names.getD i "" ++ ".png")).isSome = true := by
  interval_cases i <;> decide

/-- Matching is invariant under case folding of the name. -/
theorem re_search_ci_congr (pat name other : String)
    (h : foldStr other = foldStr name) :
    re_search_ci pat other = re_search_ci pat name := by
  simp only [re_search_ci, h]

theorem firstMatchIdx_congr (name other : String) (ps : List String) (k : Nat)
    (h : foldStr other = foldStr name) :
    firstMatchIdx other ps k = firstMatchIdx name ps k := by
  induction ps generalizing k with
  | nil => rfl
  | cons p ps ih =>
    simp only [firstMatchIdx, re_search_ci_congr p name other h, ih]

theorem matchIndex_congr (name other : String) (h : foldStr other = foldStr name) :
    matchIndex other = matchIndex name :=
  firstMatchIdx_congr name other r_expressions 0 h

/- Preservation lemmas: an entry whose name matches no pattern is
neither the source nor the destination of any rename. -/

theorem mem_renameEntry_of_ne (d : Dir) (src dst n : String) (v : FsNode)
    (hmem : (n, v) ∈ d) (hs : n ≠ src) (hd : n ≠ dst) :
    (n, v) ∈ renameEntry d src dst := by
  unfold renameEntry
  cases h : d.lookup src with
  | none => exact hmem
  | some w =>
    refine List.mem_append_left _ (List.mem_filter.mpr ⟨hmem, ?_⟩)
    simp [hs, hd]

theorem processEntry_preserves (parent m n : String) (v : FsNode)
    (st : Dir × List LogT) (hm : matchIndex n = none) (hmem : (n, v) ∈ st.1) :
    (n, v) ∈ (processEntry parent st m).1 := by
  unfold processEntry
  cases h : matchIndex m with
  | none => exact hmem
  | some i =>
    refine mem_renameEntry_of_ne _ _ _ _ _ hmem ?_ ?_
    · rintro rfl
      rw [hm] at h
      cases h
    · rintro rfl
      have hc := matchIndex_canon i (matchIndex_lt m i h)
      rw [hm] at hc
      cases hc

theorem foldl_processEntry_preserves (parent n : String) (ns : List String)
    (v : FsNode) (st : Dir × List LogT)
    (hm : matchIndex n = none) (hmem : (n, v) ∈ st.1) :
    (n, v) ∈ (ns.foldl (processEntry parent) st).1 := by
  induction ns generalizing st with
  | nil => exact hmem
  | cons m ms ih =>
    exact ih _ (processEntry_preserves parent m n v st hm hmem)

/-- Every recorded progress line has a matching source name. -/
theorem foldl_processEntry_log (parent : String) (ns : List String)
    (st : Dir × List LogT)
    (hst : ∀ t ∈ st.2, (matchIndex t.2.1).isSome = true) :
    ∀ t ∈ (ns.foldl (processEntry parent) st).2, (matchIndex t.2.1).isSome = true := by
  induction ns generalizing st with
  | nil => exact hst
  | cons m ms ih =>
    refine ih _ ?_
    intro t ht
    unfold processEntry at ht
    cases h : matchIndex m with
    | none =>
      rw [h] at ht
      exact hst t ht
    | some i =>
      rw [h] at ht
      simp only [List.mem_append, List.mem_singleton] at ht
      rcases ht with ht | rfl
      · exact hst t ht
      · simp [h]

theorem runDir_preserves (parent n : String) (d : Dir) (v : FsNode)
    (hm : matchIndex n = none) (hmem : (n, v) ∈ d) :
    (n, v) ∈ (runDir parent d).1 :=
  foldl_processEntry_preserves parent n (d.map Prod.fst) v (d, []) hm hmem

theorem runDir_log (parent : String) (d : Dir) :
    ∀ t ∈ (runDir parent d).2, (matchIndex t.2.1).isSome = true :=
  foldl_processEntry_log parent (d.map Prod.fst) (d, []) (by intro t ht; cases ht)

theorem format_directories_log (root : List (String × FsNode)) :
    ∀ t ∈ (format_directories root).2, (matchIndex t.2.1).isSome = true := by
  intro t ht
  unfold format_directories at ht
  rw [List.mem_flatten] at ht
  obtain ⟨l, hl, htl⟩ := ht
  rw [List.map_map, List.mem_map] at hl
  obtain ⟨e, he, hel⟩ := hl
  subst hel
  obtain ⟨n, node⟩ := e
  rcases node with c | d
  · simp only [Function.comp_apply, processTop] at htl
    cases htl
  · simp only [Function.comp_apply, processTop] at htl
    exact runDir_log ("./" ++ n) d t htl

example : matchIndex "my_Albedo_map" = some 0 := by decide
example : matchIndex "the_BASE_color_x" = some 0 := by decide
example : matchIndex "xxNoRmAlxx" = some 1 := by decide
example : matchIndex "r_RougHness" = some 2 := by decide
example : matchIndex "readme.txt" = none := by decide
example : matchIndex "normal_roughness" = some 1 := by decide

/-- Claim C5: for every entry name the patterns are tested
case-insensitively in fixed table order; the first matching pattern is
the result (no later pattern can influence it), the result is
invariant under changing the case of the name, and the first matching
index alone determines the canonical destination name and the progress
line of the rename. -/
theorem c5_first_match_priority (name other : String) (i : Nat)
    (hfold : foldStr other = foldStr name) :
    (matchIndex name = some i ↔
      i < 3 ∧ re_search_ci (r_expressions.getD i "") name = true ∧
        ∀ j, j < i → re_search_ci (r_expressions.getD j "") name = false)
    ∧ matchIndex other = matchIndex name
    ∧ ∀ (parent : String) (st : Dir × List LogT), matchIndex name = some i →
        processEntry parent st name =
          (renameEntry st.1 name (out_names.getD i "" ++ ".png"),
           st.2 ++ [(parent, name, out_names.getD i "" ++ ".png")]) := by
  refine ⟨matchIndex_some_iff name i, matchIndex_congr name other hfold, ?_⟩
  intro parent st h
  simp [processEntry, h]

theorem c5_first_match_priority_witness :
    matchIndex "the_normal_MAP" = matchIndex "The_Normal_map" :=
  (c5_first_match_priority "The_Normal_map" "the_normal_MAP" 1 (by decide)).2.1

/-- Claim C7: a file inside a child directory whose name matches no
pattern is left completely untouched by the whole run: it is still
present, with the same name and the same node (hence the same bytes),
and no progress line whose source is that name is ever printed. -/
theorem c7_nonmatching_untouched (root : List (String × FsNode)) (c n : String)
    (d : Dir) (v : FsNode)
    (hc : (c, FsNode.dir d) ∈ root) (hn : (n, v) ∈ d) (hm : matchIndex n = none) :
    (∃ d', (c, FsNode.dir d') ∈ (format_directories root).1 ∧ (n, v) ∈ d')
    ∧ ∀ t ∈ (format_directories root).2, t.2.1 ≠ n := by
  constructor
  · refine ⟨(runDir ("./" ++ c) d).1, ?_, runDir_preserves ("./" ++ c) n d v hm hn⟩
    unfold format_directories
    rw [List.map_map, List.mem_map]
    exact ⟨(c, FsNode.dir d), hc, rfl⟩
  · intro t ht heq
    have hlog := format_directories_log root t ht
    rw [heq, hm] at hlog
    cases hlog

theorem c7_nonmatching_untouched_witness :
    ∃ d', ("mat", FsNode.dir d') ∈
        (format_directories [("mat", FsNode.dir [("readme.txt", FsNode.file [7])])]).1
      ∧ ("readme.txt", FsNode.file [7]) ∈ d' :=
  (c7_nonmatching_untouched [("mat", FsNode.dir [("readme.txt", FsNode.file [7])])]
    "mat" "readme.txt" [("readme.txt", FsNode.file [7])] (FsNode.file [7])
    (List.mem_singleton.mpr rfl) (List.mem_singleton.mpr rfl) (by decide)).1

/-- Claim C8: an entry at the top level of the root that is not a
directory is never descended into or renamed, whatever its name: it is
returned unchanged at its position, and scanning it contributes no
progress line. -/
theorem c8_top_level_files_skipped (root : List (String × FsNode)) (i : Nat)
    (n : String) (content : List Nat)
    (h : root.getD i ("", FsNode.dir []) = (n, FsNode.file content)) :
    (format_directories root).1.getD i ("", FsNode.dir []) = (n, FsNode.file content)
    ∧ processTop (n, FsNode.file content) = ((n, FsNode.file content), []) := by
  refine ⟨?_, rfl⟩
  unfold format_directories
  rw [List.map_map]
  rw [List.getD_eq_getElem?_getD] at h ⊢
  rw [List.getElem?_map]
  cases hg : root[i]? with
  | none =>
    rw [hg] at h
    simp only [Option.getD_none] at h
    have h2 := congrArg Prod.snd h
    exact absurd h2 (fun hc => FsNode.noConfusion hc)
  | some e =>
    rw [hg] at h
    simp only [Option.getD_some] at h
    rw [h]
    rfl

theorem c8_top_level_files_skipped_witness :
    (format_directories [("top_albedo.png", FsNode.file [1])]).1.getD 0 ("", FsNode.dir [])
      = ("top_albedo.png", FsNode.file [1]) :=
  (c8_top_level_files_skipped [("top_albedo.png", FsNode.file [1])] 0
    "top_albedo.png" [1] rfl).1

/-- Claim C9: a rename never alters the renamed node: the entry that
appears under the canonical destination name carries exactly the node
(hence exactly the bytes) that the matched source name carried. -/
theorem c9_rename_preserves_content (parent n : String) (d : Dir) (lg : List LogT)
    (v : FsNode) (i : Nat) (hl : d.lookup n = some v) (hm : matchIndex n = some i) :
    (out_names.getD i "" ++ ".png", v) ∈ (processEntry parent (d, lg) n).1 := by
  simp only [processEntry, hm]
  unfold renameEntry
  rw [hl]
  exact List.mem_append_right _ (List.mem_singleton.mpr rfl)

theorem c9_rename_preserves_content_witness :
    ("albedo.png", FsNode.file [9]) ∈
      (processEntry "./m" ([("a_albedo", FsNode.file [9])], []) "a_albedo").1 :=
  c9_rename_preserves_content "./m" "a_albedo" [("a_albedo", FsNode.file [9])] []
    (FsNode.file [9]) 0 rfl (by decide)

/-- Claim C4 (as amended by nothing: confirmed): a matched entry is
renamed to the canonical name inside its own parent directory, silently
replacing whatever entry held that name: after the rename exactly the
new entry answers to the destination name.  In particular, when two
files of the same subdirectory match the same pattern, exactly one
file with the canonical name remains, holding the content of the one
processed last in enumeration order. -/
theorem c4_rename_overwrites (d : Dir) (src dst : String) (v : FsNode)
    (h : d.lookup src = some v) (v₁ v₂ : FsNode) :
    (renameEntry d src dst).filter (fun e => e.1 == dst) = [(dst, v)]
    ∧ (format_directories
        [("mat", FsNode.dir [("Albedo_old", v₁), ("albedo_new", v₂)])]).1
        = [("mat", FsNode.dir [("albedo.png", v₂)])]
    ∧ (format_directories
        [("mat", FsNode.dir [("Albedo_old", v₁), ("albedo_new", v₂)])]).2
        = [("./mat", "Albedo_old", "albedo.png"), ("./mat", "albedo_new", "albedo.png")] := by
  refine ⟨?_, rfl, rfl⟩
  unfold renameEntry
  rw [h, List.filter_append, List.filter_filter]
  have h1 : (d.filter fun a => (a.1 == dst) && (!(a.1 == src) && !(a.1 == dst))) = [] := by
    apply List.filter_eq_nil_iff.mpr
    intro a ha
    cases hx : a.1 == dst <;> simp [hx]
  rw [h1]
  simp

theorem c4_rename_overwrites_witness :
    (renameEntry [("old.png", FsNode.file [1]), ("x_albedo", FsNode.file [2])]
        "x_albedo" "old.png").filter (fun e => e.1 == "old.png")
      = [("old.png", FsNode.file [2])] :=
  (c4_rename_overwrites [("old.png", FsNode.file [1]), ("x_albedo", FsNode.file [2])]
    "x_albedo" "old.png" (FsNode.file [2]) rfl (FsNode.file []) (FsNode.file [])).1

/-- Claim C2, refutation: the inner loop of the script performs no
file-type test on the entries inside a child directory, so an entry
that is a nested directory whose name matches a pattern is renamed
exactly like a file, contradicting the claim that only files are
renamed.  Here the subdirectory "albedo_maps" of "mat" is renamed to
"albedo.png" and no longer present under its original name. -/
theorem c2_counterexample :
    ¬ ∀ (root : List (String × FsNode)) (c : String) (d : Dir) (n : String) (v : FsNode),
        (c, FsNode.dir d) ∈ root → (n, v) ∈ d → (∀ b, v ≠ FsNode.file b) →
        ∃ d', (c, FsNode.dir d') ∈ (format_directories root).1 ∧ (n, v) ∈ d' := by
  intro h
  obtain ⟨d', hd', hmem⟩ := h [("mat", FsNode.dir [("albedo_maps", FsNode.dir [])])]
    "mat" [("albedo_maps", FsNode.dir [])] "albedo_maps" (FsNode.dir [])
    (List.mem_singleton.mpr rfl) (List.mem_singleton.mpr rfl)
    (fun b hb => FsNode.noConfusion hb)
  rw [show (format_directories [("mat", FsNode.dir [("albedo_maps", FsNode.dir [])])]).1
      = [("mat", FsNode.dir [("albedo.png", FsNode.dir [])])] from rfl] at hd'
  rw [List.mem_singleton] at hd'
  have h2 := congrArg Prod.snd hd'
  simp only [FsNode.dir.injEq] at h2
  subst h2
  rw [List.mem_singleton] at hmem
  have h3 := congrArg Prod.fst hmem
  exact absurd h3 (by decide)

/-- Claim C2 as amended: the inner loop applies no file-type check, so
every entry directly inside a child directory is tested against the
patterns, and a matching entry whose canonical destination name is
free is renamed to <parent>/<canonical>.png whatever its kind: the
entry -- a nested directory just like a regular file -- is removed
from its old name and reattached, with its entire node, under the
canonical name, and the progress line is emitted.  (Renaming onto a
fresh name succeeds for directories and files alike; collision cases,
where the outcome of os.rename depends on the kinds of the entries
involved, are outside this amendment.) -/
theorem c2_amended_no_file_check (parent n : String) (d : Dir) (lg : List LogT)
    (v : FsNode) (i : Nat) (c : Dir)
    (hl : d.lookup n = some v) (hm : matchIndex n = some i)
    (hfresh : ¬ (out_names.getD i "" ++ ".png") ∈ d.map Prod.fst) :
    ((processEntry parent (d, lg) n).1
        = (d.filter fun e => !(e.1 == n)) ++ [(out_names.getD i "" ++ ".png", v)]
      ∧ (processEntry parent (d, lg) n).2
        = lg ++ [(parent, n, out_names.getD i "" ++ ".png")])
    ∧ (format_directories [("mat", FsNode.dir [("albedo_maps", FsNode.dir c)])]).1
        = [("mat", FsNode.dir [("albedo.png", FsNode.dir c)])] := by
  refine ⟨⟨?_, ?_⟩, rfl⟩
  · simp only [processEntry, hm]
    unfold renameEntry
    rw [hl]
    show (d.filter fun e => !(e.1 == n) && !(e.1 == out_names.getD i "" ++ ".png"))
        ++ [(out_names.getD i "" ++ ".png", v)]
      = (d.filter fun e => !(e.1 == n)) ++ [(out_names.getD i "" ++ ".png", v)]
    congr 1
    apply List.filter_congr
    intro e he
    have hdst : (e.1 == out_names.getD i "" ++ ".png") = false := by
      cases hb : e.1 == out_names.getD i "" ++ ".png" with
      | false => rfl
      | true => exact absurd (List.mem_map.mpr ⟨e, he, eq_of_beq hb⟩) hfresh
    rw [hdst]
    simp
  · simp [processEntry, hm]

theorem c2_amended_no_file_check_witness :
    (processEntry "./mat" ([("x_albedo", FsNode.dir [("y", FsNode.file [2])])], [])
        "x_albedo").1
      = [("albedo.png", FsNode.dir [("y", FsNode.file [2])])] :=
  ((c2_amended_no_file_check "./mat" "x_albedo"
    [("x_albedo", FsNode.dir [("y", FsNode.file [2])])] []
    (FsNode.dir [("y", FsNode.file [2])]) 0 []
    rfl (by decide) (by decide)).1).1

/- ===================================================================
   Part 2: the Build Stager (stage.py)

   The script removes any existing staging directory "dist", runs the
   external release build, recreates "dist", copies the four asset
   directories and the built executable into it, compresses "dist"
   into the archive "hot_chickens.7z", removes "dist" again and
   reports the elapsed time.

   Filesystem model: the state is a flat list of entries, each an
   absolute path (as components relative to the working directory)
   carrying `some data` for a regular file and `none` for a
   directory.  The external build command is modelled by a boolean
   outcome; its own writes (all under target/) are outside the model.
   An uncaught Python exception, which terminates the process with a
   non-zero exit status, is modelled by the `aborted` outcome carrying
   the filesystem state at the moment of the abort.
   =================================================================== -/

/-- Content of a regular file: opaque bytes, or a 7z archive holding
named entries (`none` marks a directory entry inside the archive). -/
inductive FileData where
  | bytes : List Nat → FileData
  | archive : List (String × Option FileData) → FileData

/-- One filesystem entry of the working tree. -/
structure FSEntry where
  path : List String
  content : Option FileData

/-- The working tree as a flat list of entries. -/
abbrev FS := List FSEntry

/-- The fixed staging directory name of the source. -/
def staging_dir : String := "dist"

/-- The fixed asset directory names of the source. -/
def dirs : List String := ["materials", "models", "shaders", "skyboxes"]

/-- Path of the staging directory. -/
def distPath : List String := [staging_dir]

/-- Path of the release executable copied into the staging root. -/
def exePath : List String := ["target", "release", "hot_chickens.exe"]

/-- Path of the output archive. -/
def archPath : List String := ["hot_chickens.7z"]

/-- Whether the first path is an initial segment of the second, i.e.
the second path names the first or something inside it. -/
def underPath : List String → List String → Bool
  | [], _ => true
  | _ :: _, [] => false
  | a :: as, b :: bs => a == b && underPath as bs

/-- Look a path up in the state: `none` when nothing is there,
`some none` for a directory, `some (some d)` for a file. -/
def lookupPath (fs : FS) (p : List String) : Option (Option FileData) :=
  (fs.find? fun e => e.path == p).map FSEntry.content

/-- Semantics of os.path.exists. -/
def pathExists (fs : FS) (p : List String) : Bool :=
  (lookupPath fs p).isSome

/-- Whether the path names a directory. -/
def isDir (fs : FS) (p : List String) : Bool :=
  match lookupPath fs p with
  | some none => true
  | _ => false

/-- Semantics of shutil.rmtree: remove the directory and everything
inside it. -/
def rmtree (fs : FS) (p : List String) : FS :=
  fs.filter fun e => !(underPath p e.path)

/-- The entries at or below a path, in state order. -/
def underEntries (fs : FS) (p : List String) : FS :=
  fs.filter fun e => underPath p e.path

/-- Semantics of shutil.copytree(src, dst): recursively copy the
directory src to the fresh path dst; fails (`none`) when src is not a
directory or dst already exists. -/
def copytree (fs : FS) (src dst : List String) : Option FS :=
  if isDir fs src && !(pathExists fs dst) then
    some (fs ++ (underEntries fs src).map fun e =>
      ⟨dst ++ e.path.drop src.length, e.content⟩)
  else none

/-- The copy loop over the fixed asset directory list; a failing copy
aborts the run at the state reached so far. -/
def copyLoop (fs : FS) : List String → Except FS FS
  | [] => Except.ok fs
  | d :: ds =>
    match copytree fs [d] (distPath ++ [d]) with
    | none => Except.error fs
    | some fs2 => copyLoop fs2 ds

/-- A path joined with "/" separators, the form py7zr stores. -/
def joinPath (p : List String) : String :=
  String.intercalate "/" p

/-- Semantics of SevenZipFile.writeall(staging_dir) with the default
arcname: following the zipfile/tarfile convention documented for
py7zr, each entry is stored under the path as given to the call, so
every stored name keeps the "dist" prefix (it is relative to the
working directory, not to the staging root).  The entry order py7zr
uses (each directory before its contents, siblings sorted) is not
modelled; entries are listed in state order, which no claim observes. -/
def writeallEntries (fs : FS) : List (String × Option FileData) :=
  (underEntries fs distPath).map fun e => (joinPath e.path, e.content)

/-- Create or truncate a file at a path with the given content, the
effect of opening the archive for writing and writing it out. -/
def setFile (fs : FS) (p : List String) (d : FileData) : FS :=
  if pathExists fs p then
    fs.map fun e => if e.path == p then ⟨p, some d⟩ else e
  else fs ++ [⟨p, some d⟩]

/-- Result of a Stager run: the final state plus the archive entries
written, or the state at which an uncaught error terminated the
process with a non-zero exit status. -/
inductive StageOutcome where
  | completed (fs : FS) (arc : List (String × Option FileData))
  | aborted (fs : FS)

/-- The whole script, step by step: cleanup of a pre-existing staging
directory (shutil.rmtree raises when "dist" exists but is not a
directory), the external build (check=True raises on a non-zero
exit), os.mkdir (raises when the path exists; unreachable after the
cleanup), the four copytree calls, the copy of the executable into
the staging root (raising when the source is missing or not a file,
or when "dist" is not a directory), the archive creation (opening
raises when the archive path is occupied by a directory), the final
cleanup of the staging directory. -/
def stage (fs0 : FS) (buildOk : Bool) : StageOutcome :=
  match (if pathExists fs0 distPath then
           (if isDir fs0 distPath then some (rmtree fs0 distPath) else none)
         else some fs0) with
  | none => .aborted fs0
  | some fs1 =>
    if buildOk = false then .aborted fs1
    else if pathExists fs1 distPath then .aborted fs1
    else
      match copyLoop (fs1 ++ [⟨distPath, none⟩]) dirs with
      | .error fsE => .aborted fsE
      | .ok fs3 =>
        match lookupPath fs3 exePath with
        | some (some data) =>
          if isDir fs3 distPath then
            (match lookupPath (fs3 ++ [⟨distPath ++ ["hot_chickens.exe"], some data⟩])
                archPath with
            | some none =>
              .aborted (fs3 ++ [⟨distPath ++ ["hot_chickens.exe"], some data⟩])
            | _ =>
              .completed
                (rmtree
                  (setFile (fs3 ++ [⟨distPath ++ ["hot_chickens.exe"], some data⟩])
                    archPath
                    (FileData.archive
                      (writeallEntries
                        (fs3 ++ [⟨distPath ++ ["hot_chickens.exe"], some data⟩]))))
                  distPath)
                (writeallEntries
                  (fs3 ++ [⟨distPath ++ ["hot_chickens.exe"], some data⟩])))
          else .aborted fs3
        | _ => .aborted fs3

/-- A representative working tree for concrete runs: the four asset
directories (one holding a texture), the cargo output tree with the
built executable, and an archive left over from an earlier run. -/
def w0 : FS :=
  [⟨["materials"], none⟩,
   ⟨["materials", "a.png"], some (FileData.bytes [1])⟩,
   ⟨["models"], none⟩,
   ⟨["shaders"], none⟩,
   ⟨["skyboxes"], none⟩,
   ⟨["target"], none⟩,
   ⟨["target", "release"], none⟩,
   ⟨["target", "release", "hot_chickens.exe"], some (FileData.bytes [2])⟩,
   ⟨["hot_chickens.7z"], some (FileData.bytes [3])⟩]

/- Helper lemmas about paths and the filesystem operations. -/

theorem underPath_refl (p : List String) : underPath p p = true := by
  induction p with
  | nil => rfl
  | cons a as ih => simp [underPath, ih]

theorem underPath_append_self (p q : List String) : underPath p (p ++ q) = true := by
  induction p with
  | nil => rfl
  | cons a as ih => simp [underPath, ih]

theorem underPath_single (a : String) (q : List String) :
    underPath [a] q = true ↔ ∃ r, q = a :: r := by
  cases q with
  | nil => simp [underPath]
  | cons b bs =>
    simp only [underPath, Bool.and_true]
    constructor
    · intro h
      exact ⟨bs, by rw [eq_of_beq h]⟩
    · rintro ⟨r, hr⟩
      cases hr
      exact beq_self_eq_true a

theorem lookupPath_cons (e : FSEntry) (es : FS) (p : List String) :
    lookupPath (e :: es) p
      = if (e.path == p) = true then some e.content else lookupPath es p := by
  unfold lookupPath
  rw [List.find?_cons]
  by_cases h : (e.path == p) = true
  · rw [h]
    rfl
  · rw [Bool.eq_false_iff.mpr h]
    rfl

theorem lookupPath_append (fs g : FS) (p : List String) :
    lookupPath (fs ++ g) p
      = match lookupPath fs p with
        | some c => some c
        | none => lookupPath g p := by
  induction fs with
  | nil => simp [lookupPath]
  | cons e es ih =>
    rw [List.cons_append, lookupPath_cons, lookupPath_cons]
    by_cases hep : (e.path == p) = true
    · rw [if_pos hep, if_pos hep]
    · rw [if_neg hep, if_neg hep, ih]

theorem lookupPath_filter_keep (fs : FS) (q : FSEntry → Bool) (p : List String)
    (hq : ∀ e : FSEntry, e.path = p → q e = true) :
    lookupPath (fs.filter q) p = lookupPath fs p := by
  induction fs with
  | nil => rfl
  | cons e es ih =>
    rw [List.filter_cons, lookupPath_cons]
    by_cases hep : (e.path == p) = true
    · rw [if_pos hep, if_pos (hq e (eq_of_beq hep)), lookupPath_cons, if_pos hep]
    · rw [if_neg hep]
      by_cases hqe : q e = true
      · rw [if_pos hqe, lookupPath_cons, if_neg hep, ih]
      · rw [if_neg hqe, ih]

theorem lookupPath_filter_none (fs : FS) (q : FSEntry → Bool) (p : List String)
    (hq : ∀ e : FSEntry, e.path = p → q e = false) :
    lookupPath (fs.filter q) p = none := by
  induction fs with
  | nil => rfl
  | cons e es ih =>
    rw [List.filter_cons]
    by_cases hep : (e.path == p) = true
    · rw [if_neg (by simp [hq e (eq_of_beq hep)]), ih]
    · by_cases hqe : q e = true
      · rw [if_pos hqe, lookupPath_cons, if_neg hep, ih]
      · rw [if_neg hqe, ih]

theorem lookupPath_rmtree (fs : FS) (d p : List String) (h : underPath d p = false) :
    lookupPath (rmtree fs d) p = lookupPath fs p := by
  apply lookupPath_filter_keep
  intro e he
  rw [he, h]
  rfl

theorem lookupPath_rm_self (fs : FS) (p : List String) :
    lookupPath (rmtree fs p) p = none := by
  apply lookupPath_filter_none
  intro e he
  rw [he, underPath_refl]
  rfl

theorem pathExists_rm_self (fs : FS) (p : List String) :
    pathExists (rmtree fs p) p = false := by
  unfold pathExists
  rw [lookupPath_rm_self]
  rfl

theorem isDir_rm_self (fs : FS) (p : List String) :
    isDir (rmtree fs p) p = false := by
  unfold isDir
  rw [lookupPath_rm_self]

theorem mem_rmtree (fs : FS) (p : List String) (e : FSEntry)
    (h : e ∈ rmtree fs p) : e ∈ fs :=
  List.mem_of_mem_filter h

theorem rmtree_not_under (fs : FS) (p : List String) (e : FSEntry)
    (h : e ∈ rmtree fs p) : underPath p e.path = false := by
  have h2 := List.of_mem_filter h
  simpa using h2

theorem lookupPath_eq_none_of_not_exists (fs : FS) (p : List String)
    (h : pathExists fs p = false) : lookupPath fs p = none := by
  unfold pathExists at h
  exact Option.not_isSome_iff_eq_none.mp (by simp [h])

theorem isDir_false_of_not_exists (fs : FS) (p : List String)
    (h : pathExists fs p = false) : isDir fs p = false := by
  unfold isDir
  rw [lookupPath_eq_none_of_not_exists fs p h]

theorem pathExists_of_mem (fs : FS) (p : List String) (e : FSEntry)
    (he : e ∈ fs) (hp : e.path = p) : pathExists fs p = true := by
  unfold pathExists lookupPath
  rw [Option.isSome_map', List.find?_isSome]
  exact ⟨e, he, by rw [hp]; exact beq_self_eq_true p⟩

theorem isDir_exists (fs : FS) (p : List String) (h : isDir fs p = true) :
    pathExists fs p = true := by
  unfold isDir at h
  unfold pathExists
  cases hl : lookupPath fs p with
  | none => rw [hl] at h; cases h
  | some c => rfl

theorem lookupPath_map_set (fs : FS) (p : List String) (d : FileData)
    (hex : pathExists fs p = true) :
    lookupPath (fs.map fun e => if e.path == p then ⟨p, some d⟩ else e) p
      = some (some d) := by
  induction fs with
  | nil => cases hex
  | cons e es ih =>
    simp only [List.map_cons]
    by_cases hep : (e.path == p) = true
    · rw [if_pos hep, lookupPath_cons, if_pos (beq_self_eq_true p)]
    · rw [if_neg hep, lookupPath_cons, if_neg hep]
      apply ih
      unfold pathExists at hex
      rw [lookupPath_cons, if_neg hep] at hex
      exact hex

theorem lookupPath_setFile_self (fs : FS) (p : List String) (d : FileData) :
    lookupPath (setFile fs p d) p = some (some d) := by
  unfold setFile
  by_cases hex : pathExists fs p = true
  · rw [if_pos hex]
    exact lookupPath_map_set fs p d hex
  · rw [if_neg hex]
    rw [lookupPath_append]
    rw [lookupPath_eq_none_of_not_exists fs p (by simpa using hex)]
    rw [lookupPath_cons, if_pos (beq_self_eq_true p)]

/- Wellformedness: a tree produced by real filesystem operations has
nonempty paths closed under parents.  This rules out junk states such
as an entry "dist/x" existing while "dist" itself does not. -/

/-- All proper prefixes of a path (including the empty one), shortest
first. -/
def initsProper : List String → List (List String)
  | [] => []
  | a :: as => [] :: (initsProper as).map (a :: ·)

/-- Every nonempty proper prefix of the path names a directory of the
state. -/
def ancestorsPresent (fs : FS) (p : List String) : Bool :=
  (initsProper p).all fun q => q.isEmpty || isDir fs q

/-- Wellformedness of a working tree. -/
def wfFS (fs : FS) : Bool :=
  fs.all fun e => !e.path.isEmpty && ancestorsPresent fs e.path

theorem underEntries_nil_of_not_exists (fs : FS) (hwf : wfFS fs = true)
    (h : pathExists fs distPath = false) : underEntries fs distPath = [] := by
  apply List.filter_eq_nil_iff.mpr
  intro e he hu
  obtain ⟨r, hr⟩ := (underPath_single staging_dir e.path).mp hu
  cases r with
  | nil =>
    exact absurd (pathExists_of_mem fs distPath e he (by rw [hr]; rfl)) (by simp [h])
  | cons b bs =>
    have hwfe := List.all_eq_true.mp hwf e he
    have hanc := (Bool.and_eq_true _ _).mp hwfe |>.2
    have hmem : [staging_dir] ∈ initsProper e.path := by
      rw [hr]
      simp only [initsProper]
      refine List.mem_cons_of_mem _ (List.mem_map.mpr ⟨[], ?_, rfl⟩)
      simp [initsProper]
    have hq := List.all_eq_true.mp hanc [staging_dir] hmem
    have hdir : isDir fs [staging_dir] = true := by
      cases hi : isDir fs [staging_dir] with
      | true => rfl
      | false =>
        rw [hi] at hq
        simp [List.isEmpty] at hq
    have hpe : pathExists fs distPath = true := isDir_exists fs distPath hdir
    rw [h] at hpe
    exact Bool.noConfusion hpe

/-- Entries whose paths start with the staging directory name lie
under no other top-level name. -/
theorem underEntries_nil_of_dist (g : FS)
    (hg : ∀ e ∈ g, ∃ r, e.path = staging_dir :: r)
    (d : String) (hd : (d == staging_dir) = false) :
    underEntries g [d] = [] := by
  apply List.filter_eq_nil_iff.mpr
  intro e he hu
  obtain ⟨r, hr⟩ := hg e he
  rw [hr] at hu
  simp only [underPath, Bool.and_true] at hu
  rw [hd] at hu
  cases hu

theorem underEntries_all_dist (g : FS)
    (hg : ∀ e ∈ g, ∃ r, e.path = staging_dir :: r) :
    underEntries g distPath = g := by
  apply List.filter_eq_self.mpr
  intro e he
  obtain ⟨r, hr⟩ := hg e he
  rw [hr]
  simp [distPath, underPath]

theorem lookupPath_nil_of_dist (g : FS)
    (hg : ∀ e ∈ g, ∃ r, e.path = staging_dir :: r)
    (p : List String) (hp : underPath distPath p = false) :
    lookupPath g p = none := by
  induction g with
  | nil => rfl
  | cons e es ih =>
    rw [lookupPath_cons]
    have hne : ¬ (e.path == p) = true := by
      intro hb
      obtain ⟨r, hr⟩ := hg e (List.mem_cons_self e es)
      rw [← eq_of_beq hb, hr] at hp
      rw [show underPath distPath (staging_dir :: r) = true from by
        simp [distPath, underPath]] at hp
      cases hp
    rw [if_neg hne]
    exact ih fun x hx => hg x (List.mem_cons_of_mem e hx)

theorem underEntries_append (fs g : FS) (p : List String) :
    underEntries (fs ++ g) p = underEntries fs p ++ underEntries g p := by
  unfold underEntries
  exact List.filter_append fs g

/-- Entries under another top-level directory survive the cleanup of
the staging directory untouched. -/
theorem underEntries_rmtree_other (fs : FS) (d : String)
    (hd : (staging_dir == d) = false) :
    underEntries (rmtree fs distPath) [d] = underEntries fs [d] := by
  unfold underEntries rmtree
  rw [List.filter_filter]
  apply List.filter_congr
  intro e he
  cases hu : underPath [d] e.path with
  | false => rfl
  | true =>
    obtain ⟨r, hr⟩ := (underPath_single d e.path).mp hu
    rw [hr]
    simp only [underPath, distPath, Bool.and_true, Bool.true_and]
    rw [hd]
    rfl

theorem underEntries_rm_self (fs : FS) (p : List String) :
    underEntries (rmtree fs p) p = [] := by
  apply List.filter_eq_nil_iff.mpr
  intro e he hu
  rw [rmtree_not_under fs p e he] at hu
  cases hu

/- Inversion of the pipeline steps of a completed run. -/

theorem copytree_ok (fs out : FS) (src dst : List String)
    (h : copytree fs src dst = some out) :
    isDir fs src = true ∧ pathExists fs dst = false
    ∧ out = fs ++ (underEntries fs src).map fun e =>
        ⟨dst ++ e.path.drop src.length, e.content⟩ := by
  unfold copytree at h
  split at h
  case isTrue hc =>
    have hc2 := (Bool.and_eq_true _ _).mp hc
    refine ⟨hc2.1, by simpa using hc2.2, (Option.some.inj h).symm⟩
  case isFalse => cases h

theorem copyLoop_cons (fs : FS) (d : String) (ds : List String) :
    copyLoop fs (d :: ds)
      = match copytree fs [d] (distPath ++ [d]) with
        | none => Except.error fs
        | some fs2 => copyLoop fs2 ds := rfl

theorem stage_completed_inversion (fs0 : FS) (b : Bool) (fsF : FS)
    (arc : List (String × Option FileData))
    (h : stage fs0 b = .completed fsF arc) :
    ∃ fs1 fs3 data,
      ((pathExists fs0 distPath = true ∧ isDir fs0 distPath = true
          ∧ fs1 = rmtree fs0 distPath)
        ∨ (pathExists fs0 distPath = false ∧ fs1 = fs0))
      ∧ copyLoop (fs1 ++ [⟨distPath, none⟩]) dirs = Except.ok fs3
      ∧ lookupPath fs3 exePath = some (some data)
      ∧ arc = writeallEntries (fs3 ++ [⟨distPath ++ ["hot_chickens.exe"], some data⟩])
      ∧ fsF = rmtree (setFile (fs3 ++ [⟨distPath ++ ["hot_chickens.exe"], some data⟩])
            archPath (FileData.archive arc)) distPath := by
  unfold stage at h
  split at h
  all_goals try exact StageOutcome.noConfusion h
  rename_i fs1 heq
  split at h
  all_goals try exact StageOutcome.noConfusion h
  split at h
  all_goals try exact StageOutcome.noConfusion h
  split at h
  all_goals try exact StageOutcome.noConfusion h
  rename_i fs3 hcopy
  split at h
  all_goals try exact StageOutcome.noConfusion h
  rename_i data hexe
  split at h
  all_goals try exact StageOutcome.noConfusion h
  split at h
  all_goals try exact StageOutcome.noConfusion h
  injection h with h1 h2
  subst h2
  refine ⟨fs1, fs3, data, ?_, hcopy, hexe, rfl, h1.symm⟩
  by_cases hex : pathExists fs0 distPath = true
  · rw [if_pos hex] at heq
    by_cases hd : isDir fs0 distPath = true
    · rw [if_pos hd] at heq
      exact Or.inl ⟨hex, hd, (Option.some.inj heq).symm⟩
    · rw [if_neg hd] at heq
      cases heq
  · rw [if_neg hex] at heq
    exact Or.inr ⟨by simpa using hex, (Option.some.inj heq).symm⟩

/-- Core of the failing-build behavior, shared by the claims about
aborted runs: with a failing build the run aborts during or right
after the cleanup step, the archive path is untouched, no staging
directory exists at the abort state, and nothing was added to the
tree. -/
theorem stage_buildfail (fs0 : FS) :
    ∃ fs1, stage fs0 false = .aborted fs1
      ∧ lookupPath fs1 archPath = lookupPath fs0 archPath
      ∧ isDir fs1 distPath = false
      ∧ ∀ e ∈ fs1, e ∈ fs0 := by
  by_cases hex : pathExists fs0 distPath = true
  · by_cases hd : isDir fs0 distPath = true
    · refine ⟨rmtree fs0 distPath, ?_,
        lookupPath_rmtree fs0 distPath archPath (by decide),
        isDir_rm_self fs0 distPath,
        fun e he => mem_rmtree fs0 distPath e he⟩
      unfold stage
      rw [if_pos hex, if_pos hd]
      rfl
    · refine ⟨fs0, ?_, rfl, Bool.eq_false_iff.mpr hd, fun e he => he⟩
      unfold stage
      rw [if_pos hex, if_neg hd]
  · refine ⟨fs0, ?_, rfl,
      isDir_false_of_not_exists fs0 distPath (by simpa using hex),
      fun e he => he⟩
    unfold stage
    rw [if_neg hex]
    rfl

/-- Claim C3: when the external build command exits with a non-zero
status the run aborts immediately (uncaught error, non-zero process
exit): no archive is created or changed, no staging directory exists
afterwards, and nothing was added to the working tree beyond what the
pre-build cleanup step removed. -/
theorem c3_build_failure_aborts (fs0 : FS) :
    ∃ fs1, stage fs0 false = .aborted fs1
      ∧ lookupPath fs1 archPath = lookupPath fs0 archPath
      ∧ isDir fs1 distPath = false
      ∧ ∀ e ∈ fs1, e ∈ fs0 :=
  stage_buildfail fs0

/-- Claim C10: when the build fails, an archive file left by an
earlier successful run survives with exactly its old content, because
the run aborts before the step that touches the archive path. -/
theorem c10_old_archive_survives (fs0 : FS) (a : FileData)
    (h : lookupPath fs0 archPath = some (some a)) :
    ∃ fs1, stage fs0 false = .aborted fs1
      ∧ lookupPath fs1 archPath = some (some a) := by
  obtain ⟨fs1, hab, harc, _, _⟩ := stage_buildfail fs0
  exact ⟨fs1, hab, by rw [harc, h]⟩

theorem c10_old_archive_survives_witness :
    ∃ fs1, stage w0 false = StageOutcome.aborted fs1
      ∧ lookupPath fs1 archPath = some (some (FileData.bytes [3])) :=
  c10_old_archive_survives w0 (FileData.bytes [3]) rfl

/-- Claim C6: every completed run terminates with no staging directory
(or anything beneath it) on disk, and the archive path then holds
exactly the archive written by this run, overwriting whatever was
there before. -/
theorem c6_completed_clean (fs0 : FS) (b : Bool) (fsF : FS)
    (arc : List (String × Option FileData))
    (h : stage fs0 b = .completed fsF arc) :
    pathExists fsF distPath = false
    ∧ (∀ e ∈ fsF, underPath distPath e.path = false)
    ∧ lookupPath fsF archPath = some (some (FileData.archive arc)) := by
  obtain ⟨fs1, fs3, data, hclean, hcopy, hexe, harc, hfsF⟩ :=
    stage_completed_inversion fs0 b fsF arc h
  subst hfsF
  refine ⟨pathExists_rm_self _ _, fun e he => rmtree_not_under _ _ e he, ?_⟩
  rw [lookupPath_rmtree _ _ _ (by decide)]
  exact lookupPath_setFile_self _ _ _

theorem c6_completed_clean_witness :
    ∃ fsF arc, stage w0 true = StageOutcome.completed fsF arc
      ∧ pathExists fsF distPath = false
      ∧ lookupPath fsF archPath = some (some (FileData.archive arc)) :=
  ⟨_, _, rfl, (c6_completed_clean w0 true _ _ rfl).1,
    (c6_completed_clean w0 true _ _ rfl).2.2⟩

/-- Claim C1, refutation: the archive names produced by
SevenZipFile.writeall(staging_dir) keep the staging directory name as
a leading component, so the entries are relative to the working
directory, not to the staging root: extracting at the archive root
yields a directory "dist" holding the assets and the executable, and
nothing named "materials" or "hot_chickens.exe" at the root itself. -/
theorem c1_counterexample :
    ∃ fsF arc, stage w0 true = StageOutcome.completed fsF arc
      ∧ arc.map Prod.fst
          = ["dist", "dist/materials", "dist/materials/a.png", "dist/models",
             "dist/shaders", "dist/skyboxes", "dist/hot_chickens.exe"]
      ∧ ¬ ("hot_chickens.exe" ∈ arc.map Prod.fst)
      ∧ ¬ ("materials" ∈ arc.map Prod.fst) :=
  ⟨_, _, rfl, rfl, by decide, by decide⟩

theorem lookupPath_append_none (fs g : FS) (p : List String)
    (hg : lookupPath g p = none) :
    lookupPath (fs ++ g) p = lookupPath fs p := by
  rw [lookupPath_append]
  cases hl : lookupPath fs p with
  | none => exact hg
  | some c => rfl

/-- Every entry of a copied block lies under the staging directory. -/
theorem block_dist (g : FS) (d : String) :
    ∀ e ∈ (underEntries g [d]).map (fun x =>
        (⟨(distPath ++ [d]) ++ x.path.drop 1, x.content⟩ : FSEntry)),
      ∃ r, e.path = staging_dir :: r := by
  intro e he
  rw [List.mem_map] at he
  obtain ⟨x, hx, hxe⟩ := he
  exact ⟨d :: x.path.drop 1, by rw [← hxe]; simp [distPath]⟩

/-- The archive content of the amended claim C1: the staging directory
itself, then for each asset directory of the initial tree its entries
re-rooted under dist/<name>, then the executable at
dist/hot_chickens.exe; every stored name carries the staging directory
name as its first component. -/
def expectedArc (fs : FS) (exeData : FileData) : List (String × Option FileData) :=
  (joinPath distPath, none) ::
    ((dirs.map fun d =>
        (underEntries fs [d]).map fun e =>
          (joinPath ((distPath ++ [d]) ++ e.path.drop 1), e.content)).flatten
      ++ [(joinPath (distPath ++ ["hot_chickens.exe"]), some exeData)])

/-- Claim C1 as amended: every successful run archives the entire
staging tree, but with names relative to the working directory, not to
the staging root: the archive holds the staging directory entry
itself, each asset directory of the initial tree re-rooted under
dist/<name>, and the executable at dist/hot_chickens.exe; every stored
name carries the staging directory name as its leading component. -/
theorem c1_amended_dist_prefixed (fs0 : FS) (b : Bool) (fsF : FS)
    (arc : List (String × Option FileData))
    (hwf : wfFS fs0 = true)
    (h : stage fs0 b = .completed fsF arc) :
    ∃ exeData, lookupPath fs0 exePath = some (some exeData)
      ∧ arc = expectedArc fs0 exeData := by
  obtain ⟨fs1, fs3, data, hclean, hcopy, hexe, harc, hfsF⟩ :=
    stage_completed_inversion fs0 b fsF arc h
  have hUE : ∀ d : String, (staging_dir == d) = false →
      underEntries fs1 [d] = underEntries fs0 [d] := by
    intro d hd
    rcases hclean with ⟨_, _, h1⟩ | ⟨_, h1⟩
    · rw [h1]
      exact underEntries_rmtree_other fs0 d hd
    · rw [h1]
  have hU1 : underEntries fs1 distPath = [] := by
    rcases hclean with ⟨_, _, h1⟩ | ⟨hex, h1⟩
    · rw [h1]
      exact underEntries_rm_self fs0 distPath
    · rw [h1]
      exact underEntries_nil_of_not_exists fs0 hwf hex
  have hL1 : lookupPath fs1 exePath = lookupPath fs0 exePath := by
    rcases hclean with ⟨_, _, h1⟩ | ⟨_, h1⟩
    · rw [h1]
      exact lookupPath_rmtree fs0 distPath exePath (by decide)
    · rw [h1]
  have hUE2 : ∀ d : String, (staging_dir == d) = false → (d == staging_dir) = false →
      underEntries (fs1 ++ [⟨distPath, none⟩]) [d] = underEntries fs0 [d] := by
    intro d hd1 hd2
    rw [underEntries_append, hUE d hd1,
      underEntries_nil_of_dist [⟨distPath, none⟩]
        (by
          intro e he
          rw [List.mem_singleton] at he
          subst he
          exact ⟨[], rfl⟩)
        d hd2,
      List.append_nil]
  rw [show dirs = ["materials", "models", "shaders", "skyboxes"] from rfl] at hcopy
  rw [copyLoop_cons] at hcopy
  split at hcopy
  · exact Except.noConfusion hcopy
  rename_i fsA hcA
  rw [copyLoop_cons] at hcopy
  split at hcopy
  · exact Except.noConfusion hcopy
  rename_i fsB hcB
  rw [copyLoop_cons] at hcopy
  split at hcopy
  · exact Except.noConfusion hcopy
  rename_i fsC hcC
  rw [copyLoop_cons] at hcopy
  split at hcopy
  · exact Except.noConfusion hcopy
  rename_i fsD hcD
  unfold copyLoop at hcopy
  have hfs3 : fs3 = fsD := (Except.ok.inj hcopy).symm
  subst hfs3
  obtain ⟨hdA, hpA, heA⟩ := copytree_ok _ _ _ _ hcA
  obtain ⟨hdB, hpB, heB⟩ := copytree_ok _ _ _ _ hcB
  obtain ⟨hdC, hpC, heC⟩ := copytree_ok _ _ _ _ hcC
  obtain ⟨hdD, hpD, heD⟩ := copytree_ok _ _ _ _ hcD
  simp only [List.length_cons, List.length_nil, Nat.zero_add] at heA heB heC heD
  rw [hUE2 "materials" (by decide) (by decide)] at heA
  have hA : ∀ d : String, (staging_dir == d) = false → (d == staging_dir) = false →
      underEntries fsA [d] = underEntries fs0 [d] := by
    intro d h1 h2
    rw [heA, underEntries_append, hUE2 d h1 h2,
      underEntries_nil_of_dist _ (block_dist fs0 "materials") d h2,
      List.append_nil]
  rw [hA "models" (by decide) (by decide)] at heB
  have hB : ∀ d : String, (staging_dir == d) = false → (d == staging_dir) = false →
      underEntries fsB [d] = underEntries fs0 [d] := by
    intro d h1 h2
    rw [heB, underEntries_append, hA d h1 h2,
      underEntries_nil_of_dist _ (block_dist fs0 "models") d h2,
      List.append_nil]
  rw [hB "shaders" (by decide) (by decide)] at heC
  have hC : ∀ d : String, (staging_dir == d) = false → (d == staging_dir) = false →
      underEntries fsC [d] = underEntries fs0 [d] := by
    intro d h1 h2
    rw [heC, underEntries_append, hB d h1 h2,
      underEntries_nil_of_dist _ (block_dist fs0 "shaders") d h2,
      List.append_nil]
  rw [hC "skyboxes" (by decide) (by decide)] at heD
  have hLA : lookupPath fsA exePath = lookupPath fs0 exePath := by
    rw [heA,
      lookupPath_append_none _ _ _
        (lookupPath_nil_of_dist _ (block_dist fs0 "materials") exePath (by decide)),
      lookupPath_append_none _ _ _
        (show lookupPath [⟨distPath, none⟩] exePath = none from rfl),
      hL1]
  have hLB : lookupPath fsB exePath = lookupPath fs0 exePath := by
    rw [heB,
      lookupPath_append_none _ _ _
        (lookupPath_nil_of_dist _ (block_dist fs0 "models") exePath (by decide)),
      hLA]
  have hLC : lookupPath fsC exePath = lookupPath fs0 exePath := by
    rw [heC,
      lookupPath_append_none _ _ _
        (lookupPath_nil_of_dist _ (block_dist fs0 "shaders") exePath (by decide)),
      hLB]
  have hLD : lookupPath fs3 exePath = lookupPath fs0 exePath := by
    rw [heD,
      lookupPath_append_none _ _ _
        (lookupPath_nil_of_dist _ (block_dist fs0 "skyboxes") exePath (by decide)),
      hLC]
  refine ⟨data, by rw [← hLD]; exact hexe, ?_⟩
  have hDistA : underEntries fsA distPath
      = ⟨distPath, none⟩ :: (underEntries fs0 ["materials"]).map
          (fun e => ⟨(distPath ++ ["materials"]) ++ e.path.drop 1, e.content⟩) := by
    rw [heA, underEntries_append, underEntries_append, hU1,
      underEntries_all_dist _ (block_dist fs0 "materials"),
      show underEntries [⟨distPath, none⟩] distPath = [⟨distPath, none⟩] from rfl]
    rfl
  have hDistB : underEntries fsB distPath
      = underEntries fsA distPath ++ (underEntries fs0 ["models"]).map
          (fun e => ⟨(distPath ++ ["models"]) ++ e.path.drop 1, e.content⟩) := by
    rw [heB, underEntries_append, underEntries_all_dist _ (block_dist fs0 "models")]
  have hDistC : underEntries fsC distPath
      = underEntries fsB distPath ++ (underEntries fs0 ["shaders"]).map
          (fun e => ⟨(distPath ++ ["shaders"]) ++ e.path.drop 1, e.content⟩) := by
    rw [heC, underEntries_append, underEntries_all_dist _ (block_dist fs0 "shaders")]
  have hDistD : underEntries fs3 distPath
      = underEntries fsC distPath ++ (underEntries fs0 ["skyboxes"]).map
          (fun e => ⟨(distPath ++ ["skyboxes"]) ++ e.path.drop 1, e.content⟩) := by
    rw [heD, underEntries_append, underEntries_all_dist _ (block_dist fs0 "skyboxes")]
  rw [harc]
  unfold writeallEntries
  rw [underEntries_append, hDistD, hDistC, hDistB, hDistA,
    show underEntries [⟨distPath ++ ["hot_chickens.exe"], some data⟩] distPath
      = [⟨distPath ++ ["hot_chickens.exe"], some data⟩] from rfl]
  unfold expectedArc
  simp [dirs, List.map_append, List.map_map, Function.comp_def, List.append_assoc]

theorem c1_amended_dist_prefixed_witness :
    ∃ fsF arc, stage w0 true = StageOutcome.completed fsF arc
      ∧ ∃ exeData, lookupPath w0 exePath = some (some exeData)
        ∧ arc = expectedArc w0 exeData :=
  ⟨_, _, rfl, c1_amended_dist_prefixed w0 true _ _ (by decide) rfl⟩
